import Mathlib

/-!
Verification of the trajectory-optimization transcription code of this
repository (Hermite-Simpson direct collocation, Van der Pol single and
multiple shooting, and the system factory).

Modelling conventions:
* numpy / jax arrays of rationals are modelled as `List ℚ` (or lists of
  fixed-width vectors); IEEE double arithmetic is modelled as exact
  arithmetic on `ℚ` (every float literal of the source denotes an exact
  rational; the transcription structure under study does not depend on
  rounding).
* `jax.vmap` over equal-length arrays is modelled by `List.zipWith` and a
  six-argument `zipWith6`; `np.ravel` of an `(n, 4)` array is modelled by
  `List.flatMap` over the rows.
* the `unravel` closures produced by `jax.flatten_util.ravel_pytree` are
  modelled by explicit offset computations into the flat vector, following
  the documented row-major tuple layout of `ravel_pytree`.
* `lax.scan` with a step function returning `(new, new)` is modelled by a
  structural recursion returning the pair (carry, stacked outputs).
* the dynamics closure `f` built by `make_cartpole` uses `sin`/`cos`; the
  transcription claims are structural in `f`, so the collocation
  definitions take the dynamics (and nothing else) as a parameter.
-/

namespace Myriad

/-- Pointwise combination of six equal-length lists; this is the list
model of `jax.vmap` applied to a function of six array arguments. -/
def zipWith6 {α β γ δ ε ζ η : Type} (g : α → β → γ → δ → ε → ζ → η) :
    List α → List β → List γ → List δ → List ε → List ζ → List η
  | a :: as, b :: bs, c :: cs, d :: ds, e :: es, x :: xs =>
      g a b c d e x :: zipWith6 g as bs cs ds es xs
  | _, _, _, _, _, _ => []

/-- Bound-table entries of the numpy bounds arrays: the source stores
`-onp.inf`, `onp.inf`, `np.nan` sentinels and finite floats. -/
inductive BoundVal where
  | negInf : BoundVal
  | posInf : BoundVal
  | nan : BoundVal
  | val : ℚ → BoundVal
deriving DecidableEq

namespace VDP

/-- Van der Pol dynamics, from `f` of both shooting files:
`np.asarray([(1. - x1**2) * x0 - x1 + u, x0])`; the two-dimensional state
is a pair. -/
def f (x : ℚ × ℚ) (u : ℚ) : ℚ × ℚ :=
  ((1 - x.2 ^ 2) * x.1 - x.2 + u, x.1)

/-- Instantaneous cost, from `c` of both shooting files:
`np.dot(x, x) + u**2`. -/
def c (x : ℚ × ℚ) (u : ℚ) : ℚ :=
  (x.1 * x.1 + x.2 * x.2) + u ^ 2

/-- Classical four-stage explicit RK4 step with the control held constant,
from `single_rk4_step` of the multiple-shooting file (the nested
`rk4_step` of `integrate_fwd` in both shooting files is textually
identical).  `step_size` is the parameter `dt`. -/
def single_rk4_step (dt : ℚ) (x : ℚ × ℚ) (u : ℚ) : ℚ × ℚ :=
  let k1 := f x u
  let k2 := f (x + (dt / 2) • k1) u
  let k3 := f (x + (dt / 2) • k2) u
  let k4 := f (x + dt • k3) u
  x + (dt / 6) • (k1 + 2 • k2 + 2 • k3 + k4)

/-- Forward integration from `x0` through the whole control sequence,
from `integrate_fwd` of both shooting files: a `lax.scan` whose step
returns the new state both as carry and as output, so the result is the
final state together with the stacked list of all intermediate states. -/
def integrate_fwd (dt : ℚ) (x0 : ℚ × ℚ) : List ℚ → (ℚ × ℚ) × List (ℚ × ℚ)
  | [] => (x0, [])
  | u :: us =>
    let x1 := single_rk4_step dt x0 u
    let r := integrate_fwd dt x1 us
    (r.1, x1 :: r.2)

/-- Modelled from the spec: the strictly sequential recurrence
`x_0 = initial state, x_{k+1} = step(x_k, us[k])` that the contract of
`integrate_forward` is stated against; used to compare `integrate_fwd`
with its specification. -/
def seq_state (dt : ℚ) (x0 : ℚ × ℚ) (us : List ℚ) : ℕ → ℚ × ℚ
  | 0 => x0
  | k + 1 => single_rk4_step dt (seq_state dt x0 us k) (us.getD k 0)

end VDP

namespace MShoot

/-- The `unravel` closure of the multiple-shooting file, obtained from
`ravel_pytree((starting_xs, initial_controls_guess))` with
`starting_xs : (N, 2)` and `us : (N,)`: the flat vector lays out the
start states row-major, then the controls. -/
def unravel (N : ℕ) (flat : List ℚ) : List (ℚ × ℚ) × List ℚ :=
  ((List.range N).map fun k => (flat.getD (2 * k) 0, flat.getD (2 * k + 1) 0),
   (List.range N).map fun k => flat.getD (2 * N + k) 0)

/-- Defects of intermediate and final states, from `equality_constraints`
of the multiple-shooting file: every start state is stepped once by RK4
in parallel, the targets are the next start states with `xf` appended,
and the difference is flattened row-major by `np.ravel`. -/
def equality_constraints (dt : ℚ) (N : ℕ) (xf : ℚ × ℚ) (flat : List ℚ) :
    List ℚ :=
  let sx := (unravel N flat).1
  let us := (unravel N flat).2
  let predicted_next_states := List.zipWith (VDP.single_rk4_step dt) sx us
  let ending_xs := sx.drop 1 ++ [xf]
  (List.zipWith (fun p e => p - e) predicted_next_states ending_xs).flatMap
    fun v => [v.1, v.2]

/-- Trajectory cost, from `objective` of the multiple-shooting file: the
start-state part of the decision vector is discarded, the trajectory is
re-integrated from the fixed `x0` using only the controls, and the
per-step costs are summed, plus the constant `np.dot(x0, x0)`. -/
def objective (dt : ℚ) (N : ℕ) (x0 : ℚ × ℚ) (flat : List ℚ) : ℚ :=
  let us := (unravel N flat).2
  let xs := (VDP.integrate_fwd dt x0 us).2
  (List.zipWith VDP.c xs us).sum + (x0.1 * x0.1 + x0.2 * x0.2)

end MShoot

namespace HS

/-- A four-dimensional cart-pole state vector. -/
abbrev Vec4 := Fin 4 → ℚ

/-- Instantaneous cost, from `cost` inside `make_hs_nlp`: the state
argument is deleted and the cost is `u**2`. -/
def cost (x : Vec4) (u : ℚ) : ℚ :=
  u ^ 2

/-- Hermite-Simpson collocation defect for one interval, from
`hs_defect`: `rhs = next_state - state`,
`lhs = (dt/6) * (f(s,u) + 4 f(m,w) + f(s1,u1))`, returning `rhs - lhs`.
The dynamics `f` (built by `make_cartpole` in the source) is a
parameter. -/
def hs_defect (f : Vec4 → ℚ → Vec4) (dt : ℚ)
    (state mid_state next_state : Vec4)
    (control mid_control next_control : ℚ) : Vec4 :=
  let rhs := next_state - state
  let lhs := (dt / 6) •
    (f state control + (4 : ℚ) • f mid_state mid_control
      + f next_state next_control)
  rhs - lhs

/-- Hermite-Simpson midpoint-consistency residual for one interval, from
`hs_interpolation` (whose `mid_cotrol` parameter is unused, as in the
source). -/
def hs_interpolation (f : Vec4 → ℚ → Vec4) (dt : ℚ)
    (state mid_state next_state : Vec4)
    (control mid_control next_control : ℚ) : Vec4 :=
  mid_state - ((1 : ℚ) / 2) • (state + next_state)
    - (dt / 8) • (f state control - f next_state next_control)

/-- Simpson quadrature of the instantaneous cost over one interval, from
`hs_cost`. -/
def hs_cost (dt : ℚ)
    (state mid_state next_state : Vec4)
    (control mid_control next_control : ℚ) : ℚ :=
  (dt / 6) *
    (cost state control + 4 * cost mid_state mid_control
      + cost next_state next_control)

/-- The `unravel` closure of the collocation file, obtained from
`ravel_pytree((states, mid_states, controls, mid_controls))` with
`states : (N+1, 4)`, `mid_states : (N, 4)`, `controls : (N+1,)`,
`mid_controls : (N,)`: row-major concatenation in tuple order, so the
offsets of the four parts are `0`, `4(N+1)`, `8N+4`, `9N+5`. -/
def unravel (N : ℕ) (flat : List ℚ) :
    List Vec4 × List Vec4 × List ℚ × List ℚ :=
  ((List.range (N + 1)).map fun k i => flat.getD (4 * k + (i : ℕ)) 0,
   (List.range N).map fun k i => flat.getD (4 * (N + 1) + 4 * k + (i : ℕ)) 0,
   (List.range (N + 1)).map fun k => flat.getD (8 * N + 4 + k) 0,
   (List.range N).map fun k => flat.getD (9 * N + 5 + k) 0)

/-- Collocation objective, from `objective` inside `make_hs_nlp`:
`np.sum(batched_cost(states[:-1], mid_states, states[1:], controls[:-1],
mid_controls, controls[1:]))`. -/
def objective (dt : ℚ) (N : ℕ) (flat : List ℚ) : ℚ :=
  match unravel N flat with
  | (states, mid_states, controls, mid_controls) =>
    (zipWith6 (hs_cost dt) states.dropLast mid_states (states.drop 1)
      controls.dropLast mid_controls (controls.drop 1)).sum

/-- Collocation defect constraints, from `equality_constraints` inside
`make_hs_nlp`: `np.ravel(batched_defects(states[:-1], mid_states,
states[1:], controls[:-1], mid_controls, controls[1:]))`. -/
def equality_constraints (f : Vec4 → ℚ → Vec4) (dt : ℚ) (N : ℕ)
    (flat : List ℚ) : List ℚ :=
  match unravel N flat with
  | (states, mid_states, controls, mid_controls) =>
    (zipWith6 (hs_defect f dt) states.dropLast mid_states (states.drop 1)
      controls.dropLast mid_controls (controls.drop 1)).flatMap
      fun v => List.ofFn v

/-- Collocation midpoint-consistency constraints, from
`interpolation_constraints` inside `make_hs_nlp`; a constraint group of
its own, separate from the defect group. -/
def interpolation_constraints (f : Vec4 → ℚ → Vec4) (dt : ℚ) (N : ℕ)
    (flat : List ℚ) : List ℚ :=
  match unravel N flat with
  | (states, mid_states, controls, mid_controls) =>
    (zipWith6 (hs_interpolation f dt) states.dropLast mid_states
      (states.drop 1) controls.dropLast mid_controls
      (controls.drop 1)).flatMap fun v => List.ofFn v

/-- Exact rational value of the IEEE double `np.pi`. -/
def np_pi : ℚ := 884279719003555 / 281474976710656

/-- The swing-up distance `dist = 0.8` of the collocation file. -/
def dist : ℚ := 0.8

/-- The control bound `umax = 100` of the collocation file. -/
def umax : ℚ := 100

/-- The raw per-dimension state bounds written into every row of
`state_bounds` by the column assignments of `make_hs_nlp`: position in
`[-2 dist, 2 dist]`, angle in `[-2 pi, 2 pi]`, both velocities
unbounded. -/
def raw_state_bounds : Fin 4 → BoundVal × BoundVal :=
  ![(.val (-(2 * dist)), .val (2 * dist)),
    (.val (-(2 * np_pi)), .val (2 * np_pi)),
    (.negInf, .posInf),
    (.negInf, .posInf)]

/-- Row `k` (node index, `0 ≤ k ≤ N`) of the `(nvars, 8)` array
`state_bounds` of `make_hs_nlp`, after all the sequential numpy
assignments: first every row gets the raw bounds, then row `0` is zeroed,
then row `-1` is overwritten with `[dist, dist, pi, pi, 0, 0, 0, 0]`.
The last assignment wins, hence the last-row test comes first. -/
def state_bounds (N : ℕ) (k : ℕ) : Fin 4 → BoundVal × BoundVal :=
  if k = N then
    ![(.val dist, .val dist), (.val np_pi, .val np_pi),
      (.val 0, .val 0), (.val 0, .val 0)]
  else if k = 0 then
    fun _ => (.val 0, .val 0)
  else
    raw_state_bounds

/-- One row of `mid_state_bounds` of `make_hs_nlp`: every row is set to
`[-2 dist, 2 dist, -2 pi, 2 pi, -inf, inf, -inf, inf]`. -/
def mid_state_bounds_row : Fin 4 → BoundVal × BoundVal :=
  ![(.val (-(2 * dist)), .val (2 * dist)),
    (.val (-(2 * np_pi)), .val (2 * np_pi)),
    (.negInf, .posInf),
    (.negInf, .posInf)]

/-- One row of `control_bounds` and of `mid_control_bounds` of
`make_hs_nlp`: every row is `[-umax, umax]`. -/
def control_bounds_row : BoundVal × BoundVal :=
  (.val (-umax), .val umax)

/-- The full bounds table returned by `make_hs_nlp`:
`np.vstack((state_bounds.reshape(-1, 2), mid_state_bounds.reshape(-1, 2),
control_bounds, mid_control_bounds))`, i.e. the node-state rows
(node-major, dimension-inner), then the midpoint-state rows, then one
control row per node, then one mid-control row per interval. -/
def hs_bounds (N : ℕ) : List (BoundVal × BoundVal) :=
  ((List.range (N + 1)).flatMap fun k => List.ofFn (state_bounds N k))
    ++ ((List.range N).flatMap fun _ => List.ofFn mid_state_bounds_row)
    ++ ((List.range (N + 1)).map fun _ => control_bounds_row)
    ++ ((List.range N).map fun _ => control_bounds_row)

/-- The pinned initial state of the collocation problem: the source zeroes
the whole first bound row, pinning the first node to the origin state. -/
def x0_pin : Fin 4 → ℚ := fun _ => 0

/-- The pinned final state of the collocation problem,
`[dist, pi, 0, 0]`. -/
def xT_pin : Fin 4 → ℚ :=
  ![dist, np_pi, 0, 0]

/-- Quadratic control interpolant, from `hs_control_interpolation`: the
bracketing node indices are `floor(t/dt)` and `ceil(t/dt)`; on a node the
control there is returned; otherwise the quadratic through
`(control_k, mid_control_k, control_{k+1})` is evaluated at the offset
`tau = t - dt * kstart`, combined as
`first_term - second_term + third_term`. -/
def hs_control_interpolation (controls mid_controls : ℕ → ℚ) (dt : ℚ)
    (t : ℚ) : ℚ :=
  let kstart : ℤ := ⌊t / dt⌋
  let kend : ℤ := ⌈t / dt⌉
  if kstart = kend then controls kstart.toNat
  else
    let tstart : ℚ := dt * kstart
    let tau : ℚ := t - tstart
    let first_term :=
      2 / dt ^ 2 * (tau - dt / 2) * (tau - dt) * controls kstart.toNat
    let second_term :=
      4 / dt ^ 2 * tau * (tau - dt) * mid_controls kstart.toNat
    let third_term :=
      2 / dt ^ 2 * tau * (tau - dt / 2) * controls kend.toNat
    first_term - second_term + third_term

end HS

namespace Codec

/-- Modelled from the spec: a leaf array of the structured tuples handled
by the flatten/unflatten codec (`jax.flatten_util.ravel_pytree` is
library code, not part of this repository); the tuples of this repository
hold one-dimensional and two-dimensional float arrays. -/
inductive Arr where
  | vec : List ℚ → Arr
  | mat : List (List ℚ) → Arr
deriving DecidableEq

/-- Shape of a leaf array, recorded by the codec at flatten time. -/
inductive ArrShape where
  | vecS : ℕ → ArrShape
  | matS : List ℕ → ArrShape
deriving DecidableEq

/-- Modelled from the spec: the shape the codec records for one array. -/
def arr_shape : Arr → ArrShape
  | .vec v => .vecS v.length
  | .mat m => .matS (m.map List.length)

/-- Modelled from the spec: row-major flattening of one array. -/
def ravel_arr : Arr → List ℚ
  | .vec v => v
  | .mat m => m.flatten

/-- Number of elements of one array. -/
def arr_size (a : Arr) : ℕ :=
  (ravel_arr a).length

/-- Reassemble matrix rows of the recorded lengths from the front of the
flat vector, returning the rows and the unconsumed remainder. -/
def take_rows : List ℕ → List ℚ → List (List ℚ) × List ℚ
  | [], flat => ([], flat)
  | n :: ns, flat =>
    let r := take_rows ns (flat.drop n)
    (flat.take n :: r.1, r.2)

/-- Modelled from the spec: rebuild one array of the recorded shape from
the front of the flat vector, returning it and the unconsumed
remainder. -/
def unravel_arr : ArrShape → List ℚ → Arr × List ℚ
  | .vecS n, flat => (.vec (flat.take n), flat.drop n)
  | .matS ns, flat =>
    let r := take_rows ns flat
    (.mat r.1, r.2)

/-- Modelled from the spec: `flatten(structured_tuple) -> flat_vector`,
concatenating the row-major flattenings of the member arrays in tuple
order (the layout of `ravel_pytree`). -/
def ravel_pytree (t : List Arr) : List ℚ :=
  (t.map ravel_arr).flatten

/-- Modelled from the spec: the `unflatten_fn` returned by the codec,
parameterized by the shapes recorded at flatten time; consumes the flat
vector left to right. -/
def unravel_pytree : List ArrShape → List ℚ → List Arr
  | [], _ => []
  | s :: ss, flat =>
    let r := unravel_arr s flat
    r.1 :: unravel_pytree ss r.2

end Codec

namespace Systems

/-- Modelled from the spec: the requestable dynamics types.
`DynamicsType` is imported by `systems.py` from the config module but is
not defined anywhere under the sources; the spec fixes the known closed
set CartPole, VanDerPol, SEIR, and the config module mentions (in a
commented-out default) one further requestable system type, FISHHARVEST,
which represents the requested types outside the known set. -/
inductive DynamicsType where
  | CARTPOLE : DynamicsType
  | VANDERPOL : DynamicsType
  | SEIR : DynamicsType
  | FISHHARVEST : DynamicsType
deriving DecidableEq

/-- Construction-time data of `FiniteHorizonControlSystem` of
`systems.py` (the `dynamics`, `cost` and plotting methods are not part of
the dispatch claim and are not modelled). -/
structure FiniteHorizonControlSystem where
  x_0 : List ℚ
  x_T : Option (List ℚ)
  T : ℚ
  bounds : List (BoundVal × BoundVal)
deriving DecidableEq

/-- The `CartPole()` construction data of `systems.py`. -/
def cartpole_sys : FiniteHorizonControlSystem where
  x_0 := [0, 0, 0, 0]
  x_T := some [1, HS.np_pi, 0, 0]
  T := 2
  bounds :=
    [(.val (-2), .val 2),
     (.val (-(2 * HS.np_pi)), .val (2 * HS.np_pi)),
     (.nan, .nan),
     (.nan, .nan),
     (.val (-20), .val 20)]

/-- The `VanDerPol()` construction data of `systems.py`. -/
def vanderpol_sys : FiniteHorizonControlSystem where
  x_0 := [0, 1]
  x_T := some [0, 0]
  T := 10
  bounds :=
    [(.nan, .nan),
     (.nan, .nan),
     (.val (-0.75), .val 1)]

/-- The `SEIR()` construction data of `systems.py`
(`N_0 = 1000 + 100 + 50 + 15 = 1165`). -/
def seir_sys : FiniteHorizonControlSystem where
  x_0 := [1000, 100, 50, 1165]
  x_T := none
  T := 20
  bounds :=
    [(.nan, .nan),
     (.nan, .nan),
     (.nan, .nan),
     (.nan, .nan),
     (.val 0, .val 1)]

/-- A raised Python exception; `raise KeyError` carries no argument, so
the payload of a lookup error is an optional message. -/
inductive PyError where
  | keyError : Option String → PyError
deriving DecidableEq

/-- The dispatch function `get_system` of `systems.py`: the three known
types return their systems; any other requested type hits the bare
`raise KeyError`, which carries no argument. -/
def get_system : DynamicsType → Except PyError FiniteHorizonControlSystem
  | .CARTPOLE => .ok cartpole_sys
  | .VANDERPOL => .ok vanderpol_sys
  | .SEIR => .ok seir_sys
  | _ => .error (.keyError none)

end Systems

/-! General list lemmas about flattening constant-width blocks and about
pointwise maps, shared by the transcription theorems below. -/

lemma length_flatMap_const {α β : Type} (l : List α) (g : α → List β)
    (n : ℕ) (hg : ∀ a ∈ l, (g a).length = n) :
    (l.flatMap g).length = n * l.length := by
  induction l with
  | nil => simp
  | cons a t ih =>
    rw [List.flatMap_cons, List.length_append, hg a (by simp),
      ih fun b hb => hg b (by simp [hb]), List.length_cons]
    ring

lemma getD_flatMap_const {α β : Type} (l : List α) (g : α → List β)
    (n : ℕ) (d : β) (hg : ∀ a ∈ l, (g a).length = n) (k i : ℕ)
    (hk : k < l.length) (hi : i < n) :
    (l.flatMap g).getD (n * k + i) d = (g (l.get ⟨k, hk⟩)).getD i d := by
  induction l generalizing k with
  | nil => simp at hk
  | cons a t ih =>
    rw [List.flatMap_cons]
    cases k with
    | zero =>
      rw [Nat.mul_zero, Nat.zero_add,
        List.getD_append _ _ _ _ (by rw [hg a (by simp)]; exact hi)]
      rfl
    | succ k =>
      have hlen : (g a).length = n := hg a (by simp)
      have hle : (g a).length ≤ n * (k + 1) + i := by
        rw [hlen]; nlinarith
      rw [List.getD_append_right _ _ _ _ hle, hlen,
        show n * (k + 1) + i - n = n * k + i by ring_nf; omega]
      have hk' : k < t.length := by simpa using Nat.lt_of_succ_lt_succ hk
      rw [ih (fun b hb => hg b (by simp [hb])) k hk']
      rfl

lemma zipWith6_map {σ α β γ δ ε ζ η : Type}
    (g : α → β → γ → δ → ε → ζ → η)
    (h1 : σ → α) (h2 : σ → β) (h3 : σ → γ)
    (h4 : σ → δ) (h5 : σ → ε) (h6 : σ → ζ) (l : List σ) :
    zipWith6 g (l.map h1) (l.map h2) (l.map h3) (l.map h4) (l.map h5)
        (l.map h6)
      = l.map fun k => g (h1 k) (h2 k) (h3 k) (h4 k) (h5 k) (h6 k) := by
  induction l with
  | nil => rfl
  | cons a t ih => simp [zipWith6, ih]

lemma dropLast_map_range {α : Type} (h : ℕ → α) (n : ℕ) :
    ((List.range (n + 1)).map h).dropLast = (List.range n).map h := by
  rw [show n + 1 = Nat.succ n from rfl, List.range_succ, List.map_append]
  exact List.dropLast_concat

lemma drop_one_map_range {α : Type} (h : ℕ → α) (n : ℕ) :
    ((List.range (n + 1)).map h).drop 1
      = (List.range n).map fun k => h (k + 1) := by
  rw [List.range_succ_eq_map, List.map_cons, List.drop_succ_cons,
    List.drop_zero, List.map_map]
  simp [Function.comp_def, Nat.succ_eq_add_one]

lemma seq_state_cons (dt : ℚ) (x0 : ℚ × ℚ) (u : ℚ) (us : List ℚ) (k : ℕ) :
    VDP.seq_state dt x0 (u :: us) (k + 1)
      = VDP.seq_state dt (VDP.single_rk4_step dt x0 u) us k := by
  induction k with
  | zero => rfl
  | succ k ih =>
    rw [show VDP.seq_state dt x0 (u :: us) (k + 1 + 1)
          = VDP.single_rk4_step dt (VDP.seq_state dt x0 (u :: us) (k + 1))
              ((u :: us).getD (k + 1) 0) from rfl,
      ih, List.getD_cons_succ]
    rfl

/-- C7: `integrate_fwd` returns the pair of the final state and the list
of all intermediate states; the intermediate states are exactly the
strictly sequential RK4 recurrence `x_1, ..., x_N` from the fixed initial
state, and the final state is `x_N`, the last intermediate state. -/
theorem integrate_fwd_spec (dt : ℚ) (x0 : ℚ × ℚ) (us : List ℚ) :
    (VDP.integrate_fwd dt x0 us).2.length = us.length
    ∧ (∀ k, k < us.length →
        (VDP.integrate_fwd dt x0 us).2.getD k (0, 0)
          = VDP.seq_state dt x0 us (k + 1))
    ∧ (VDP.integrate_fwd dt x0 us).1 = VDP.seq_state dt x0 us us.length
    ∧ (VDP.integrate_fwd dt x0 us).1
        = (VDP.integrate_fwd dt x0 us).2.getLastD x0 := by
  induction us generalizing x0 with
  | nil =>
    exact ⟨rfl, fun k hk => absurd hk (by simp), rfl, rfl⟩
  | cons u us ih =>
    obtain ⟨ihlen, ihget, ihfin, ihlast⟩ := ih (VDP.single_rk4_step dt x0 u)
    refine ⟨?_, ?_, ?_, ?_⟩
    · simpa [VDP.integrate_fwd] using ihlen
    · intro k hk
      cases k with
      | zero =>
        simp [VDP.integrate_fwd, VDP.seq_state]
      | succ k =>
        have hk' : k < us.length := by
          simpa using Nat.lt_of_succ_lt_succ hk
        simp only [VDP.integrate_fwd, List.getD_cons_succ]
        rw [ihget k hk', seq_state_cons]
    · simp only [VDP.integrate_fwd, List.length_cons]
      rw [ihfin, seq_state_cons]
    · simp only [VDP.integrate_fwd, List.getLastD_cons]
      exact ihlast

/-- Witness for C7 at a concrete input. -/
theorem integrate_fwd_spec_witness :
    0 < [(1 : ℚ), 2].length
    ∧ (VDP.integrate_fwd 1 ((0 : ℚ), (1 : ℚ)) [1, 2]).2.getD 0 (0, 0)
        = VDP.seq_state 1 (0, 1) [1, 2] 1 :=
  ⟨by norm_num, (integrate_fwd_spec 1 (0, 1) [1, 2]).2.1 0 (by norm_num)⟩

/-- C6: the multiple-shooting equality constraints return, for each
segment `k` before the last, the RK4-propagated end state of segment `k`
minus the starting state of segment `k + 1`, and for the last segment the
propagated end state minus `x_T`, all flattened row-major into one vector
of length `2 N`. -/
theorem ms_equality_constraints_spec (dt : ℚ) (N : ℕ) (xf : ℚ × ℚ)
    (flat : List ℚ) :
    (MShoot.equality_constraints dt N xf flat).length = 2 * N
    ∧ (∀ k, k + 1 < N →
        ((MShoot.equality_constraints dt N xf flat).getD (2 * k) 0,
          (MShoot.equality_constraints dt N xf flat).getD (2 * k + 1) 0)
          = VDP.single_rk4_step dt
              (flat.getD (2 * k) 0, flat.getD (2 * k + 1) 0)
              (flat.getD (2 * N + k) 0)
            - (flat.getD (2 * (k + 1)) 0, flat.getD (2 * (k + 1) + 1) 0))
    ∧ (∀ k, k + 1 = N →
        ((MShoot.equality_constraints dt N xf flat).getD (2 * k) 0,
          (MShoot.equality_constraints dt N xf flat).getD (2 * k + 1) 0)
          = VDP.single_rk4_step dt
              (flat.getD (2 * k) 0, flat.getD (2 * k + 1) 0)
              (flat.getD (2 * N + k) 0)
            - xf) := by
  have hE : MShoot.equality_constraints dt N xf flat
      = (List.zipWith (fun p e => p - e)
          (List.zipWith (VDP.single_rk4_step dt)
            ((List.range N).map fun k =>
              ((flat.getD (2 * k) 0, flat.getD (2 * k + 1) 0) : ℚ × ℚ))
            ((List.range N).map fun k => flat.getD (2 * N + k) 0))
          (((List.range N).map fun k =>
              ((flat.getD (2 * k) 0, flat.getD (2 * k + 1) 0) : ℚ × ℚ)).drop 1
            ++ [xf])).flatMap fun v => [v.1, v.2] := rfl
  have hblocks : ∀ v : ℚ × ℚ,
      v ∈ List.zipWith (fun p e => p - e)
          (List.zipWith (VDP.single_rk4_step dt)
            ((List.range N).map fun k =>
              ((flat.getD (2 * k) 0, flat.getD (2 * k + 1) 0) : ℚ × ℚ))
            ((List.range N).map fun k => flat.getD (2 * N + k) 0))
          (((List.range N).map fun k =>
              ((flat.getD (2 * k) 0, flat.getD (2 * k + 1) 0) : ℚ × ℚ)).drop 1
            ++ [xf]) →
      (([v.1, v.2] : List ℚ)).length = 2 := fun _ _ => rfl
  have hZlen : (List.zipWith (fun p e => p - e)
      (List.zipWith (VDP.single_rk4_step dt)
        ((List.range N).map fun k =>
          ((flat.getD (2 * k) 0, flat.getD (2 * k + 1) 0) : ℚ × ℚ))
        ((List.range N).map fun k => flat.getD (2 * N + k) 0))
      (((List.range N).map fun k =>
          ((flat.getD (2 * k) 0, flat.getD (2 * k + 1) 0) : ℚ × ℚ)).drop 1
        ++ [xf])).length = N := by
    simp [List.length_zipWith]
    omega
  have key : ∀ k, (hk : k < N) →
      ((MShoot.equality_constraints dt N xf flat).getD (2 * k) 0,
        (MShoot.equality_constraints dt N xf flat).getD (2 * k + 1) 0)
        = VDP.single_rk4_step dt
            (flat.getD (2 * k) 0, flat.getD (2 * k + 1) 0)
            (flat.getD (2 * N + k) 0)
          - (((List.range N).map fun j =>
                ((flat.getD (2 * j) 0, flat.getD (2 * j + 1) 0) : ℚ × ℚ)).drop 1
              ++ [xf]).getD k (0, 0) := by
    intro k hk
    have hkZ : k < (List.zipWith (fun p e => p - e)
        (List.zipWith (VDP.single_rk4_step dt)
          ((List.range N).map fun j =>
            ((flat.getD (2 * j) 0, flat.getD (2 * j + 1) 0) : ℚ × ℚ))
          ((List.range N).map fun j => flat.getD (2 * N + j) 0))
        (((List.range N).map fun j =>
            ((flat.getD (2 * j) 0, flat.getD (2 * j + 1) 0) : ℚ × ℚ)).drop 1
          ++ [xf])).length := by rw [hZlen]; exact hk
    have h0 := getD_flatMap_const _ (fun v : ℚ × ℚ => [v.1, v.2]) 2 0
      hblocks k 0 hkZ (by norm_num)
    have h1 := getD_flatMap_const _ (fun v : ℚ × ℚ => [v.1, v.2]) 2 0
      hblocks k 1 hkZ (by norm_num)
    rw [Nat.add_zero] at h0
    rw [hE, h0, h1, List.get_eq_getElem]
    have hkT : k < (((List.range N).map fun j =>
        ((flat.getD (2 * j) 0, flat.getD (2 * j + 1) 0) : ℚ × ℚ)).drop 1
        ++ [xf]).length := by
      simp only [List.length_append, List.length_drop, List.length_map,
        List.length_range, List.length_cons, List.length_nil]
      omega
    rw [List.getD_eq_getElem _ _ hkT]
    simp only [List.getElem_zipWith, List.getElem_map, List.getElem_range]
    exact Prod.mk.eta
  refine ⟨?_, ?_, ?_⟩
  · rw [hE, length_flatMap_const _ _ 2 hblocks, hZlen]
  · intro k hk
    rw [key k (by omega)]
    congr 1
    have hlt : k < (((List.range N).map fun j =>
        ((flat.getD (2 * j) 0, flat.getD (2 * j + 1) 0) : ℚ × ℚ)).drop 1).length := by
      simp only [List.length_drop, List.length_map, List.length_range]
      omega
    rw [List.getD_append _ _ _ _ hlt, List.getD_eq_getElem _ _ hlt]
    simp only [List.getElem_drop, List.getElem_map, List.getElem_range]
    rw [Nat.add_comm 1 k]
  · intro k hk
    rw [key k (by omega)]
    congr 1
    have hlen : (((List.range N).map fun j =>
        ((flat.getD (2 * j) 0, flat.getD (2 * j + 1) 0) : ℚ × ℚ)).drop 1).length
        = k := by
      simp only [List.length_drop, List.length_map, List.length_range]
      omega
    rw [List.getD_append_right _ _ _ _ (le_of_eq hlen), hlen, Nat.sub_self]
    rfl

/-- Witness for C6 at a concrete input. -/
theorem ms_equality_constraints_spec_witness :
    0 + 1 < 2
    ∧ ((MShoot.equality_constraints 1 2 (0, 0) [0, 0, 1, 1, 5, 7]).getD
          (2 * 0) 0,
        (MShoot.equality_constraints 1 2 (0, 0) [0, 0, 1, 1, 5, 7]).getD
          (2 * 0 + 1) 0)
        = VDP.single_rk4_step 1
            (([0, 0, 1, 1, 5, 7] : List ℚ).getD (2 * 0) 0,
              ([0, 0, 1, 1, 5, 7] : List ℚ).getD (2 * 0 + 1) 0)
            (([0, 0, 1, 1, 5, 7] : List ℚ).getD (2 * 2 + 0) 0)
          - (([0, 0, 1, 1, 5, 7] : List ℚ).getD (2 * (0 + 1)) 0,
              ([0, 0, 1, 1, 5, 7] : List ℚ).getD (2 * (0 + 1) + 1) 0) :=
  ⟨by norm_num,
    (ms_equality_constraints_spec 1 2 (0, 0) [0, 0, 1, 1, 5, 7]).2.1 0
      (by norm_num)⟩

lemma sum_map_range (g : ℕ → ℚ) (n : ℕ) :
    ((List.range n).map g).sum = ∑ k ∈ Finset.range n, g k := by
  induction n with
  | zero => simp
  | succ n ih =>
    rw [List.range_succ, List.map_append, List.sum_append,
      Finset.sum_range_succ, ih]
    simp

lemma flat4_length {β : Type} (g : ℕ → Fin 4 → β) (N : ℕ) :
    ((List.range N).flatMap fun k => List.ofFn (g k)).length = 4 * N := by
  rw [length_flatMap_const _ _ 4 fun a _ => List.length_ofFn _]
  simp

lemma flat4_getD {β : Type} (g : ℕ → Fin 4 → β) (d : β) (N k : ℕ)
    (i : Fin 4) (hk : k < N) :
    ((List.range N).flatMap fun j => List.ofFn (g j)).getD
        (4 * k + (i : ℕ)) d
      = g k i := by
  rw [getD_flatMap_const (List.range N) (fun j => List.ofFn (g j)) 4 d
    (fun a _ => List.length_ofFn _) k (i : ℕ) (by simpa using hk) i.isLt]
  have hget : (List.range N).get ⟨k, by simpa using hk⟩ = k := by
    rw [List.get_eq_getElem, List.getElem_range]
  rw [hget, List.getD_eq_getElem _ _ (by simp), List.getElem_ofFn]

/-- C1: the Hermite-Simpson defect of interval `k` is
`state_{k+1} - state_k - (dt/6) (f(s_k,u_k) + 4 f(m_k,w_k) +
f(s_{k+1},u_{k+1}))`, and the equality-constraints function returns
exactly these values for all intervals, flattened row-major with the
intervals outer and the four state dimensions inner. -/
theorem hs_equality_constraints_spec (f : HS.Vec4 → ℚ → HS.Vec4) (dt : ℚ)
    (N : ℕ) (flat : List ℚ) :
    (HS.equality_constraints f dt N flat).length = 4 * N
    ∧ ∀ k, k < N → ∀ i : Fin 4,
        (HS.equality_constraints f dt N flat).getD (4 * k + (i : ℕ)) 0
          = flat.getD (4 * (k + 1) + (i : ℕ)) 0
              - flat.getD (4 * k + (i : ℕ)) 0
            - dt / 6
              * (f (fun j => flat.getD (4 * k + (j : ℕ)) 0)
                    (flat.getD (8 * N + 4 + k) 0) i
                + 4 * f (fun j => flat.getD (4 * (N + 1) + 4 * k + (j : ℕ)) 0)
                    (flat.getD (9 * N + 5 + k) 0) i
                + f (fun j => flat.getD (4 * (k + 1) + (j : ℕ)) 0)
                    (flat.getD (8 * N + 4 + (k + 1)) 0) i) := by
  have hE : HS.equality_constraints f dt N flat
      = (List.range N).flatMap fun k =>
          List.ofFn (HS.hs_defect f dt
            (fun i => flat.getD (4 * k + (i : ℕ)) 0)
            (fun i => flat.getD (4 * (N + 1) + 4 * k + (i : ℕ)) 0)
            (fun i => flat.getD (4 * (k + 1) + (i : ℕ)) 0)
            (flat.getD (8 * N + 4 + k) 0)
            (flat.getD (9 * N + 5 + k) 0)
            (flat.getD (8 * N + 4 + (k + 1)) 0)) := by
    rw [show HS.equality_constraints f dt N flat
        = (zipWith6 (HS.hs_defect f dt)
            (((List.range (N + 1)).map fun k =>
              (fun i => flat.getD (4 * k + (i : ℕ)) 0 : HS.Vec4)).dropLast)
            ((List.range N).map fun k =>
              (fun i => flat.getD (4 * (N + 1) + 4 * k + (i : ℕ)) 0 :
                HS.Vec4))
            (((List.range (N + 1)).map fun k =>
              (fun i => flat.getD (4 * k + (i : ℕ)) 0 : HS.Vec4)).drop 1)
            (((List.range (N + 1)).map fun k =>
              flat.getD (8 * N + 4 + k) 0).dropLast)
            ((List.range N).map fun k => flat.getD (9 * N + 5 + k) 0)
            (((List.range (N + 1)).map fun k =>
              flat.getD (8 * N + 4 + k) 0).drop 1)).flatMap
          fun v => List.ofFn v from rfl,
      dropLast_map_range, dropLast_map_range, drop_one_map_range,
      drop_one_map_range, zipWith6_map, List.flatMap_map]
  rw [hE]
  refine ⟨flat4_length _ N, fun k hk i => ?_⟩
  rw [flat4_getD _ 0 N k i hk]
  simp only [HS.hs_defect, Pi.sub_apply, Pi.add_apply, Pi.smul_apply,
    smul_eq_mul]

/-- Witness for C1 at a concrete input. -/
theorem hs_equality_constraints_spec_witness :
    0 < 1
    ∧ (HS.equality_constraints (fun x u j => x j + u) 1 1
          [1, 2, 3, 4, 5, 6, 7, 8, 9, 10, 11, 12, 13, 14, 15]).getD
        (4 * 0 + ((2 : Fin 4) : ℕ)) 0
        = ([1, 2, 3, 4, 5, 6, 7, 8, 9, 10, 11, 12, 13, 14, 15] :
              List ℚ).getD (4 * (0 + 1) + ((2 : Fin 4) : ℕ)) 0
            - ([1, 2, 3, 4, 5, 6, 7, 8, 9, 10, 11, 12, 13, 14, 15] :
              List ℚ).getD (4 * 0 + ((2 : Fin 4) : ℕ)) 0
          - 1 / 6
            * ((fun x u j => x j + u)
                  (fun j => ([1, 2, 3, 4, 5, 6, 7, 8, 9, 10, 11, 12, 13,
                    14, 15] : List ℚ).getD (4 * 0 + (j : ℕ)) 0)
                  (([1, 2, 3, 4, 5, 6, 7, 8, 9, 10, 11, 12, 13, 14, 15] :
                    List ℚ).getD (8 * 1 + 4 + 0) 0) (2 : Fin 4)
              + 4 * (fun x u j => x j + u)
                  (fun j => ([1, 2, 3, 4, 5, 6, 7, 8, 9, 10, 11, 12, 13,
                    14, 15] : List ℚ).getD (4 * (1 + 1) + 4 * 0 + (j : ℕ)) 0)
                  (([1, 2, 3, 4, 5, 6, 7, 8, 9, 10, 11, 12, 13, 14, 15] :
                    List ℚ).getD (9 * 1 + 5 + 0) 0) (2 : Fin 4)
              + (fun x u j => x j + u)
                  (fun j => ([1, 2, 3, 4, 5, 6, 7, 8, 9, 10, 11, 12, 13,
                    14, 15] : List ℚ).getD (4 * (0 + 1) + (j : ℕ)) 0)
                  (([1, 2, 3, 4, 5, 6, 7, 8, 9, 10, 11, 12, 13, 14, 15] :
                    List ℚ).getD (8 * 1 + 4 + (0 + 1)) 0) (2 : Fin 4)) :=
  ⟨by norm_num,
    (hs_equality_constraints_spec (fun x u j => x j + u) 1 1
      [1, 2, 3, 4, 5, 6, 7, 8, 9, 10, 11, 12, 13, 14, 15]).2 0 (by norm_num)
      (2 : Fin 4)⟩

/-- C2: the Hermite-Simpson interpolation residual of interval `k` is
`mid_k - (1/2)(s_k + s_{k+1}) - (dt/8)(f(s_k,u_k) - f(s_{k+1},u_{k+1}))`,
and the interpolation-constraints function (a constraint group of its
own, separate from the defect group) returns exactly these values for
all intervals, flattened row-major. -/
theorem hs_interpolation_constraints_spec (f : HS.Vec4 → ℚ → HS.Vec4)
    (dt : ℚ) (N : ℕ) (flat : List ℚ) :
    (HS.interpolation_constraints f dt N flat).length = 4 * N
    ∧ ∀ k, k < N → ∀ i : Fin 4,
        (HS.interpolation_constraints f dt N flat).getD (4 * k + (i : ℕ)) 0
          = flat.getD (4 * (N + 1) + 4 * k + (i : ℕ)) 0
            - 1 / 2 * (flat.getD (4 * k + (i : ℕ)) 0
                + flat.getD (4 * (k + 1) + (i : ℕ)) 0)
            - dt / 8
              * (f (fun j => flat.getD (4 * k + (j : ℕ)) 0)
                    (flat.getD (8 * N + 4 + k) 0) i
                - f (fun j => flat.getD (4 * (k + 1) + (j : ℕ)) 0)
                    (flat.getD (8 * N + 4 + (k + 1)) 0) i) := by
  have hE : HS.interpolation_constraints f dt N flat
      = (List.range N).flatMap fun k =>
          List.ofFn (HS.hs_interpolation f dt
            (fun i => flat.getD (4 * k + (i : ℕ)) 0)
            (fun i => flat.getD (4 * (N + 1) + 4 * k + (i : ℕ)) 0)
            (fun i => flat.getD (4 * (k + 1) + (i : ℕ)) 0)
            (flat.getD (8 * N + 4 + k) 0)
            (flat.getD (9 * N + 5 + k) 0)
            (flat.getD (8 * N + 4 + (k + 1)) 0)) := by
    rw [show HS.interpolation_constraints f dt N flat
        = (zipWith6 (HS.hs_interpolation f dt)
            (((List.range (N + 1)).map fun k =>
              (fun i => flat.getD (4 * k + (i : ℕ)) 0 : HS.Vec4)).dropLast)
            ((List.range N).map fun k =>
              (fun i => flat.getD (4 * (N + 1) + 4 * k + (i : ℕ)) 0 :
                HS.Vec4))
            (((List.range (N + 1)).map fun k =>
              (fun i => flat.getD (4 * k + (i : ℕ)) 0 : HS.Vec4)).drop 1)
            (((List.range (N + 1)).map fun k =>
              flat.getD (8 * N + 4 + k) 0).dropLast)
            ((List.range N).map fun k => flat.getD (9 * N + 5 + k) 0)
            (((List.range (N + 1)).map fun k =>
              flat.getD (8 * N + 4 + k) 0).drop 1)).flatMap
          fun v => List.ofFn v from rfl,
      dropLast_map_range, dropLast_map_range, drop_one_map_range,
      drop_one_map_range, zipWith6_map, List.flatMap_map]
  rw [hE]
  refine ⟨flat4_length _ N, fun k hk i => ?_⟩
  rw [flat4_getD _ 0 N k i hk]
  simp only [HS.hs_interpolation, Pi.sub_apply, Pi.add_apply, Pi.smul_apply,
    smul_eq_mul]

/-- Witness for C2 at a concrete input. -/
theorem hs_interpolation_constraints_spec_witness :
    0 < 1
    ∧ (HS.interpolation_constraints (fun x u j => x j * u) 1 1
          [1, 2, 3, 4, 5, 6, 7, 8, 9, 10, 11, 12, 13, 14, 15]).getD
        (4 * 0 + ((1 : Fin 4) : ℕ)) 0
        = ([1, 2, 3, 4, 5, 6, 7, 8, 9, 10, 11, 12, 13, 14, 15] :
              List ℚ).getD (4 * (1 + 1) + 4 * 0 + ((1 : Fin 4) : ℕ)) 0
          - 1 / 2 * (([1, 2, 3, 4, 5, 6, 7, 8, 9, 10, 11, 12, 13, 14, 15] :
                List ℚ).getD (4 * 0 + ((1 : Fin 4) : ℕ)) 0
              + ([1, 2, 3, 4, 5, 6, 7, 8, 9, 10, 11, 12, 13, 14, 15] :
                List ℚ).getD (4 * (0 + 1) + ((1 : Fin 4) : ℕ)) 0)
          - 1 / 8
            * ((fun x u j => x j * u)
                  (fun j => ([1, 2, 3, 4, 5, 6, 7, 8, 9, 10, 11, 12, 13,
                    14, 15] : List ℚ).getD (4 * 0 + (j : ℕ)) 0)
                  (([1, 2, 3, 4, 5, 6, 7, 8, 9, 10, 11, 12, 13, 14, 15] :
                    List ℚ).getD (8 * 1 + 4 + 0) 0) (1 : Fin 4)
              - (fun x u j => x j * u)
                  (fun j => ([1, 2, 3, 4, 5, 6, 7, 8, 9, 10, 11, 12, 13,
                    14, 15] : List ℚ).getD (4 * (0 + 1) + (j : ℕ)) 0)
                  (([1, 2, 3, 4, 5, 6, 7, 8, 9, 10, 11, 12, 13, 14, 15] :
                    List ℚ).getD (8 * 1 + 4 + (0 + 1)) 0) (1 : Fin 4)) :=
  ⟨by norm_num,
    (hs_interpolation_constraints_spec (fun x u j => x j * u) 1 1
      [1, 2, 3, 4, 5, 6, 7, 8, 9, 10, 11, 12, 13, 14, 15]).2 0 (by norm_num)
      (1 : Fin 4)⟩

/-- C3: the collocation objective equals the sum over the intervals of
the Simpson quadrature `(dt/6)(cost(s_k,u_k) + 4 cost(m_k,w_k) +
cost(s_{k+1},u_{k+1}))` of the instantaneous cost. -/
theorem hs_objective_spec (dt : ℚ) (N : ℕ) (flat : List ℚ) :
    HS.objective dt N flat
      = ∑ k ∈ Finset.range N,
          dt / 6
            * (HS.cost (fun j => flat.getD (4 * k + (j : ℕ)) 0)
                  (flat.getD (8 * N + 4 + k) 0)
              + 4 * HS.cost
                  (fun j => flat.getD (4 * (N + 1) + 4 * k + (j : ℕ)) 0)
                  (flat.getD (9 * N + 5 + k) 0)
              + HS.cost (fun j => flat.getD (4 * (k + 1) + (j : ℕ)) 0)
                  (flat.getD (8 * N + 4 + (k + 1)) 0)) := by
  have hE : HS.objective dt N flat
      = ((List.range N).map fun k =>
          HS.hs_cost dt
            (fun i => flat.getD (4 * k + (i : ℕ)) 0)
            (fun i => flat.getD (4 * (N + 1) + 4 * k + (i : ℕ)) 0)
            (fun i => flat.getD (4 * (k + 1) + (i : ℕ)) 0)
            (flat.getD (8 * N + 4 + k) 0)
            (flat.getD (9 * N + 5 + k) 0)
            (flat.getD (8 * N + 4 + (k + 1)) 0)).sum := by
    rw [show HS.objective dt N flat
        = (zipWith6 (HS.hs_cost dt)
            (((List.range (N + 1)).map fun k =>
              (fun i => flat.getD (4 * k + (i : ℕ)) 0 : HS.Vec4)).dropLast)
            ((List.range N).map fun k =>
              (fun i => flat.getD (4 * (N + 1) + 4 * k + (i : ℕ)) 0 :
                HS.Vec4))
            (((List.range (N + 1)).map fun k =>
              (fun i => flat.getD (4 * k + (i : ℕ)) 0 : HS.Vec4)).drop 1)
            (((List.range (N + 1)).map fun k =>
              flat.getD (8 * N + 4 + k) 0).dropLast)
            ((List.range N).map fun k => flat.getD (9 * N + 5 + k) 0)
            (((List.range (N + 1)).map fun k =>
              flat.getD (8 * N + 4 + k) 0).drop 1)).sum from rfl,
      dropLast_map_range, dropLast_map_range, drop_one_map_range,
      drop_one_map_range, zipWith6_map]
  rw [hE, sum_map_range]
  exact Finset.sum_congr rfl fun k _ => by
    simp only [HS.hs_cost]

/-- Witness for C3 at a concrete input (the theorem has no hypothesis;
this instance just records a closed evaluation of it). -/
theorem hs_objective_spec_witness :
    HS.objective 1 1 [1, 2, 3, 4, 5, 6, 7, 8, 9, 10, 11, 12, 13, 14, 15]
      = ∑ k ∈ Finset.range 1,
          1 / 6
            * (HS.cost (fun j => ([1, 2, 3, 4, 5, 6, 7, 8, 9, 10, 11, 12,
                  13, 14, 15] : List ℚ).getD (4 * k + (j : ℕ)) 0)
                  (([1, 2, 3, 4, 5, 6, 7, 8, 9, 10, 11, 12, 13, 14, 15] :
                    List ℚ).getD (8 * 1 + 4 + k) 0)
              + 4 * HS.cost
                  (fun j => ([1, 2, 3, 4, 5, 6, 7, 8, 9, 10, 11, 12, 13,
                    14, 15] : List ℚ).getD (4 * (1 + 1) + 4 * k + (j : ℕ)) 0)
                  (([1, 2, 3, 4, 5, 6, 7, 8, 9, 10, 11, 12, 13, 14, 15] :
                    List ℚ).getD (9 * 1 + 5 + k) 0)
              + HS.cost (fun j => ([1, 2, 3, 4, 5, 6, 7, 8, 9, 10, 11, 12,
                  13, 14, 15] : List ℚ).getD (4 * (k + 1) + (j : ℕ)) 0)
                  (([1, 2, 3, 4, 5, 6, 7, 8, 9, 10, 11, 12, 13, 14, 15] :
                    List ℚ).getD (8 * 1 + 4 + (k + 1)) 0)) :=
  hs_objective_spec 1 1 [1, 2, 3, 4, 5, 6, 7, 8, 9, 10, 11, 12, 13, 14, 15]

/-- C10: the multiple-shooting objective does not depend on the
segment-start-state part of the decision vector: any two flat vectors
that unravel to the same controls give the same objective value, because
the objective re-integrates the trajectory from the fixed initial state
using only the controls. -/
theorem ms_objective_independent (dt : ℚ) (N : ℕ) (x0 : ℚ × ℚ)
    (v1 v2 : List ℚ) (h : (MShoot.unravel N v1).2 = (MShoot.unravel N v2).2) :
    MShoot.objective dt N x0 v1 = MShoot.objective dt N x0 v2 := by
  unfold MShoot.objective
  rw [h]

/-- Witness for C10 at a concrete input: the two flat vectors differ in
every start-state coordinate but share the control part. -/
theorem ms_objective_independent_witness :
    (MShoot.unravel 1 [0, 0, 5]).2 = (MShoot.unravel 1 [7, 9, 5]).2
    ∧ MShoot.objective 1 1 (0, 1) [0, 0, 5]
        = MShoot.objective 1 1 (0, 1) [7, 9, 5] :=
  ⟨by decide, ms_objective_independent 1 1 (0, 1) [0, 0, 5] [7, 9, 5]
    (by decide)⟩

lemma take_rows_flatten (m : List (List ℚ)) (rest : List ℚ) :
    Codec.take_rows (m.map List.length) (m.flatten ++ rest) = (m, rest) := by
  induction m with
  | nil => simp [Codec.take_rows]
  | cons r m ih =>
    simp only [List.map_cons, List.flatten_cons, Codec.take_rows,
      List.append_assoc]
    rw [List.take_left, List.drop_left, ih]

lemma unravel_arr_ravel (a : Codec.Arr) (rest : List ℚ) :
    Codec.unravel_arr (Codec.arr_shape a) (Codec.ravel_arr a ++ rest)
      = (a, rest) := by
  cases a with
  | vec v =>
    simp only [Codec.arr_shape, Codec.ravel_arr, Codec.unravel_arr]
    rw [List.take_left, List.drop_left]
  | mat m =>
    simp only [Codec.arr_shape, Codec.ravel_arr, Codec.unravel_arr]
    rw [take_rows_flatten]

/-- C4: the flatten/unflatten codec round-trips exactly: unflattening the
flattened form of any structured tuple of arrays (with the shapes
recorded at flatten time) returns the tuple unchanged, and the flat
vector holds exactly the total element count. -/
theorem ravel_pytree_roundtrip (t : List Codec.Arr) :
    Codec.unravel_pytree (t.map Codec.arr_shape) (Codec.ravel_pytree t) = t
    ∧ (Codec.ravel_pytree t).length = (t.map Codec.arr_size).sum := by
  refine ⟨?_, ?_⟩
  · induction t with
    | nil => rfl
    | cons a t ih =>
      show Codec.unravel_pytree (Codec.arr_shape a :: t.map Codec.arr_shape)
        ((Codec.ravel_arr a :: t.map Codec.ravel_arr).flatten) = a :: t
      rw [List.flatten_cons]
      simp only [Codec.unravel_pytree]
      rw [unravel_arr_ravel]
      exact congrArg (a :: ·) ih
  · induction t with
    | nil => rfl
    | cons a t ih =>
      show ((Codec.ravel_arr a :: t.map Codec.ravel_arr).flatten).length
        = (Codec.arr_size a :: t.map Codec.arr_size).sum
      rw [List.flatten_cons, List.length_append, List.sum_cons,
        show (List.map Codec.ravel_arr t).flatten.length
          = (Codec.ravel_pytree t).length from rfl, ih]
      rfl

/-- C5: the quadratic control interpolant agrees exactly with the node
control at every node time `k dt` and with the midpoint control at every
midpoint time `k dt + dt/2`. -/
theorem hs_control_interpolation_nodes (controls mid_controls : ℕ → ℚ)
    (dt : ℚ) (hdt : 0 < dt) (k : ℕ) :
    HS.hs_control_interpolation controls mid_controls dt ((k : ℚ) * dt)
        = controls k
    ∧ HS.hs_control_interpolation controls mid_controls dt
          ((k : ℚ) * dt + dt / 2)
        = mid_controls k := by
  have hdt0 : dt ≠ 0 := ne_of_gt hdt
  constructor
  · have hq : ((k : ℚ) * dt) / dt = ((k : ℕ) : ℚ) := by
      field_simp
    simp [HS.hs_control_interpolation, hq, Int.floor_natCast,
      Int.ceil_natCast, Int.toNat_natCast]
  · have hq : ((k : ℚ) * dt + dt / 2) / dt = (k : ℚ) + 1 / 2 := by
      field_simp
      ring
    have hfl : ⌊(k : ℚ) + 1 / 2⌋ = (k : ℤ) := by
      rw [Int.floor_eq_iff]
      constructor
      · push_cast
        linarith
      · push_cast
        linarith
    have hcl : ⌈(k : ℚ) + 1 / 2⌉ = (k : ℤ) + 1 := by
      rw [Int.ceil_eq_iff]
      constructor
      · push_cast
        linarith
      · push_cast
        linarith
    have hne : ¬ ((k : ℤ) = (k : ℤ) + 1) := by omega
    have htn : ((k : ℤ) + 1).toNat = k + 1 := by omega
    simp only [HS.hs_control_interpolation, hq, hfl, hcl, if_neg hne,
      Int.toNat_natCast, htn]
    have htau : (k : ℚ) * dt + dt / 2 - dt * (((k : ℤ) : ℤ) : ℚ) = dt / 2 := by
      push_cast
      ring
    push_cast
    field_simp
    ring

/-- Witness for C5 at a concrete input. -/
theorem hs_control_interpolation_nodes_witness :
    (0 : ℚ) < 1
    ∧ (HS.hs_control_interpolation (fun n => (n : ℚ))
          (fun n => (n : ℚ) + 10) 1 (((3 : ℕ) : ℚ) * 1) = ((3 : ℕ) : ℚ)
        ∧ HS.hs_control_interpolation (fun n => (n : ℚ))
            (fun n => (n : ℚ) + 10) 1 (((3 : ℕ) : ℚ) * 1 + 1 / 2)
          = ((3 : ℕ) : ℚ) + 10) :=
  ⟨by norm_num,
    hs_control_interpolation_nodes (fun n => (n : ℚ))
      (fun n => (n : ℚ) + 10) 1 (by norm_num) 3⟩

/-- C8: in the bounds table of the collocation transcription, the first
and last node state rows collapse to single points equal to the pinned
boundary states, interior node state rows and every midpoint state row
are the raw per-dimension bounds, and every control and mid-control row
is the raw control bound `[-umax, umax]`. -/
theorem hs_bounds_spec (N : ℕ) (hN : 1 ≤ N) :
    (∀ i : Fin 4,
        (HS.hs_bounds N).getD (i : ℕ) (.nan, .nan)
          = (.val (HS.x0_pin i), .val (HS.x0_pin i)))
    ∧ (∀ i : Fin 4,
        (HS.hs_bounds N).getD (4 * N + (i : ℕ)) (.nan, .nan)
          = (.val (HS.xT_pin i), .val (HS.xT_pin i)))
    ∧ (∀ k, 0 < k → k < N → ∀ i : Fin 4,
        (HS.hs_bounds N).getD (4 * k + (i : ℕ)) (.nan, .nan)
          = HS.raw_state_bounds i)
    ∧ (∀ k, k < N → ∀ i : Fin 4,
        (HS.hs_bounds N).getD (4 * (N + 1) + (4 * k + (i : ℕ))) (.nan, .nan)
          = HS.raw_state_bounds i)
    ∧ (∀ k, k < N + 1 →
        (HS.hs_bounds N).getD (4 * (N + 1) + (4 * N + k)) (.nan, .nan)
          = (.val (-HS.umax), .val HS.umax))
    ∧ (∀ k, k < N →
        (HS.hs_bounds N).getD (4 * (N + 1) + (4 * N + ((N + 1) + k)))
          (.nan, .nan)
          = (.val (-HS.umax), .val HS.umax)) := by
  simp only [HS.hs_bounds]
  set L1 := (List.range (N + 1)).flatMap fun k =>
    List.ofFn (HS.state_bounds N k) with hL1
  set L2 := (List.range N).flatMap fun _ =>
    List.ofFn HS.mid_state_bounds_row with hL2
  set L3 := (List.range (N + 1)).map fun _ => HS.control_bounds_row with hL3
  set L4 := (List.range N).map fun _ => HS.control_bounds_row with hL4
  have hl1 : L1.length = 4 * (N + 1) := flat4_length _ (N + 1)
  have hl2 : L2.length = 4 * N := flat4_length _ N
  have hl3 : L3.length = N + 1 := by rw [hL3]; simp
  have hl4 : L4.length = N := by rw [hL4]; simp
  have hlen12 : (L1 ++ L2).length = 4 * (N + 1) + 4 * N := by
    rw [List.length_append, hl1, hl2]
  have hlen123 : ((L1 ++ L2) ++ L3).length
      = 4 * (N + 1) + 4 * N + (N + 1) := by
    rw [List.length_append, hlen12, hl3]
  refine ⟨?_, ?_, ?_, ?_, ?_, ?_⟩
  · intro i
    have hi := i.isLt
    rw [List.getD_append _ _ _ _ (by rw [hlen123]; omega),
      List.getD_append _ _ _ _ (by rw [hlen12]; omega),
      List.getD_append _ _ _ _ (by rw [hl1]; omega),
      show ((i : ℕ)) = 4 * 0 + (i : ℕ) by omega, hL1,
      flat4_getD _ (BoundVal.nan, BoundVal.nan) (N + 1) 0 i (by omega)]
    rw [HS.state_bounds, if_neg (by omega), if_pos rfl]
    rfl
  · intro i
    have hi := i.isLt
    rw [List.getD_append _ _ _ _ (by rw [hlen123]; omega),
      List.getD_append _ _ _ _ (by rw [hlen12]; omega),
      List.getD_append _ _ _ _ (by rw [hl1]; omega), hL1,
      flat4_getD _ (BoundVal.nan, BoundVal.nan) (N + 1) N i (by omega)]
    rw [HS.state_bounds, if_pos rfl]
    fin_cases i <;> rfl
  · intro k hk0 hkN i
    have hi := i.isLt
    rw [List.getD_append _ _ _ _ (by rw [hlen123]; omega),
      List.getD_append _ _ _ _ (by rw [hlen12]; omega),
      List.getD_append _ _ _ _ (by rw [hl1]; omega), hL1,
      flat4_getD _ (BoundVal.nan, BoundVal.nan) (N + 1) k i (by omega)]
    rw [HS.state_bounds, if_neg (by omega), if_neg (by omega)]
  · intro k hk i
    have hi := i.isLt
    rw [List.getD_append _ _ _ _ (by rw [hlen123]; omega),
      List.getD_append _ _ _ _ (by rw [hlen12]; omega),
      List.getD_append_right _ _ _ _ (by rw [hl1]; omega), hl1,
      Nat.add_sub_cancel_left, hL2,
      flat4_getD _ (BoundVal.nan, BoundVal.nan) N k i hk]
    rfl
  · intro k hk
    rw [List.getD_append _ _ _ _ (by rw [hlen123]; omega),
      List.getD_append_right _ _ _ _ (by rw [hlen12]; omega),
      show 4 * (N + 1) + (4 * N + k) - (L1 ++ L2).length = k by
        rw [hlen12]; omega,
      List.getD_eq_getElem _ _ (by rw [hl3]; omega)]
    simp only [hL3, List.getElem_map]
    rfl
  · intro k hk
    rw [List.getD_append_right _ _ _ _ (by rw [hlen123]; omega),
      show 4 * (N + 1) + (4 * N + ((N + 1) + k))
        - (L1 ++ L2 ++ L3).length = k by rw [hlen123]; omega,
      List.getD_eq_getElem _ _ (by rw [hl4]; omega)]
    simp only [hL4, List.getElem_map]
    rfl

/-- Witness for C8 at a concrete interval count. -/
theorem hs_bounds_spec_witness :
    1 ≤ 2
    ∧ (HS.hs_bounds 2).getD ((1 : Fin 4) : ℕ) (.nan, .nan)
        = (.val (HS.x0_pin (1 : Fin 4)), .val (HS.x0_pin (1 : Fin 4))) :=
  ⟨by norm_num, (hs_bounds_spec 2 (by norm_num)).1 1⟩

/-- C9 counterexample: for the requested type FISHHARVEST (outside the
known set), the lookup error raised by `get_system` is a bare `KeyError`
carrying no message, so the error does not name the requested type. -/
theorem get_system_error_carries_no_name :
    ¬ ∃ s : String, Systems.get_system .FISHHARVEST
        = .error (.keyError (some s)) := by
  rintro ⟨s, hs⟩
  simp [Systems.get_system] at hs

/-- C9 (amended): for every requested dynamics type outside the known set
CARTPOLE, VANDERPOL, SEIR, `get_system` fails with a lookup error — a
bare `KeyError` carrying no message, hence not naming the requested
type — and never returns a system. -/
theorem get_system_unknown (t : Systems.DynamicsType)
    (h : t ≠ .CARTPOLE ∧ t ≠ .VANDERPOL ∧ t ≠ .SEIR) :
    Systems.get_system t = .error (.keyError none) := by
  cases t with
  | CARTPOLE => exact absurd rfl h.1
  | VANDERPOL => exact absurd rfl h.2.1
  | SEIR => exact absurd rfl h.2.2
  | FISHHARVEST => rfl

/-- Witness for the amended C9 at the concrete unknown type. -/
theorem get_system_unknown_witness :
    (Systems.DynamicsType.FISHHARVEST ≠ .CARTPOLE
      ∧ Systems.DynamicsType.FISHHARVEST ≠ .VANDERPOL
      ∧ Systems.DynamicsType.FISHHARVEST ≠ .SEIR)
    ∧ Systems.get_system .FISHHARVEST = .error (.keyError none) :=
  ⟨by decide, get_system_unknown _ (by decide)⟩

end Myriad
